import Mathlib

/-!
# Speed-reader core logic: shallow embedding and verification

Embedding of the speed-reading engine in `src/src/App.jsx`:
chunk formatting (`getChunkText`, lines 115–136; `getNextChunkStart`,
lines 549–558; `getPrevChunkStart`, lines 560–569), the autoplay tick
(lines 149–174), the timer interval formula (lines 146 and 388), the
pair cursor operations (lines 386–399, 437–446, 585–595), the training
modulator (lines 348–352 and 493–516), `togglePlay` (lines 179–181),
the pair→linear sync (lines 376, 484–490, 188–191) and `toggleTraining`
(lines 457–473).

Word sequences are `List String`, indices and character budgets are `ℕ`
(JS `Math.max(0, ·)` becomes truncated `ℕ` subtraction), pixel gaps and
the training direction are `ℤ`.  Out-of-range word access is modelled by
`List.getD · ""` (reachable call sites only access in-range indices).
-/

namespace SpeedReader

/-- Loop body of `getChunkText` (App.jsx 121–134): walk the suffix of the
word list, pushing each word while `total + (w.length + 1)` stays within
the budget; if the very first word already exceeds the budget it is pushed
alone (`buffer.length === 0` branch).  `isFirst` tracks whether the buffer
is still empty. -/
def chunkWordsAux (charLimit : ℕ) : List String → ℕ → Bool → List String
  | [], _, _ => []
  | w :: ws, total, isFirst =>
    if total + (w.length + 1) > charLimit then
      (if isFirst then [w] else [])
    else
      w :: chunkWordsAux charLimit ws (total + (w.length + 1)) false

/-- `getChunkText` (App.jsx 115–136): the displayed chunk starting at
`position`, whole words joined by single spaces, empty when the word
list is empty. -/
def getChunkText (words : List String) (charLimit : ℕ) (position : ℕ) : String :=
  if words.length = 0 then ""
  else String.intercalate " " (chunkWordsAux charLimit (words.drop position) 0 true)

/-- Loop body shared by `getNextChunkStart` (App.jsx 550–555) and the
autoplay tick (App.jsx 152–160): advance `next` over the suffix while the
running total stays within the budget. -/
def nextChunkLoop (charLimit : ℕ) : List String → ℕ → ℕ → ℕ
  | [], _, next => next
  | w :: ws, total, next =>
    if total + (w.length + 1) > charLimit then next
    else nextChunkLoop charLimit ws (total + (w.length + 1)) (next + 1)

/-- `getNextChunkStart` (App.jsx 549–558): start index of the chunk after
the one starting at `pos`; if no word was consumed, force
`min(words.length, pos + 1)`. -/
def getNextChunkStart (words : List String) (charLimit : ℕ) (pos : ℕ) : ℕ :=
  let next := nextChunkLoop charLimit (words.drop pos) 0 pos
  if next = pos then min words.length (pos + 1) else next

/-- Loop body of `getPrevChunkStart` (App.jsx 561–566): walk `prev`
backward while the words passed over keep the running total within the
budget. -/
def prevChunkLoop (words : List String) (charLimit : ℕ) : ℕ → ℕ → ℕ
  | 0, _ => 0
  | prev + 1, total =>
    if total + ((words.getD prev "").length + 1) > charLimit then prev + 1
    else prevChunkLoop words charLimit prev (total + ((words.getD prev "").length + 1))

/-- `getPrevChunkStart` (App.jsx 560–569): start index of the chunk
preceding `pos`; if no word fit, step back exactly one word
(`Math.max(0, pos - 1)`). -/
def getPrevChunkStart (words : List String) (charLimit : ℕ) (pos : ℕ) : ℕ :=
  let prev := prevChunkLoop words charLimit pos 0
  if prev = pos then pos - 1 else prev

/-- Cost of a list of words under the chunking rule: each word contributes
its length plus one separator. -/
def sumCost (l : List String) : ℕ := (l.map (fun w => w.length + 1)).sum

/-- Number of words the forward accumulation loop consumes from a suffix,
starting from running total `t`. -/
def consumedCount (charLimit : ℕ) : List String → ℕ → ℕ
  | [], _ => 0
  | w :: ws, t =>
    if t + (w.length + 1) > charLimit then 0
    else consumedCount charLimit ws (t + (w.length + 1)) + 1

/-- Sum of word costs of `k` consecutive words starting at index `m`. -/
def sumIdx (words : List String) : ℕ → ℕ → ℕ
  | _, 0 => 0
  | m, k + 1 => ((words.getD m "").length + 1) + sumIdx words (m + 1) k

@[simp] theorem sumCost_nil : sumCost [] = 0 := rfl

@[simp] theorem sumCost_cons (w : String) (l : List String) :
    sumCost (w :: l) = (w.length + 1) + sumCost l := rfl

theorem nextChunkLoop_eq_add_count (charLimit : ℕ) (l : List String) :
    ∀ t next, nextChunkLoop charLimit l t next = next + consumedCount charLimit l t := by
  induction l with
  | nil => intro t next; rfl
  | cons w ws ih =>
    intro t next
    simp only [nextChunkLoop, consumedCount]
    split
    · rfl
    · rw [ih]; omega

theorem consumedCount_le_length (charLimit : ℕ) (l : List String) :
    ∀ t, consumedCount charLimit l t ≤ l.length := by
  induction l with
  | nil => intro t; simp [consumedCount]
  | cons w ws ih =>
    intro t
    simp only [consumedCount, List.length_cons]
    split
    · omega
    · have := ih (t + (w.length + 1)); omega

theorem consumedCount_sum_le (charLimit : ℕ) (l : List String) :
    ∀ t, t ≤ charLimit →
      t + sumCost (l.take (consumedCount charLimit l t)) ≤ charLimit := by
  induction l with
  | nil => intro t ht; simpa [consumedCount] using ht
  | cons w ws ih =>
    intro t ht
    simp only [consumedCount]
    split
    · simpa using ht
    · rename_i hfit
      rw [List.take_succ_cons, sumCost_cons]
      have := ih (t + (w.length + 1)) (by omega)
      omega

theorem consumedCount_maximal (charLimit : ℕ) (l : List String) :
    ∀ t, consumedCount charLimit l t < l.length →
      charLimit < t + sumCost (l.take (consumedCount charLimit l t + 1)) := by
  induction l with
  | nil => intro t h; simp [consumedCount] at h
  | cons w ws ih =>
    intro t h
    simp only [consumedCount, List.length_cons] at h ⊢
    split
    · rename_i hbig
      rw [List.take_succ_cons, List.take_zero, sumCost_cons]
      omega
    · rename_i hfit
      rw [List.take_succ_cons, sumCost_cons]
      split at h
      · exact absurd ‹_› hfit
      · have := ih (t + (w.length + 1)) (by omega)
        omega

theorem chunkWordsAux_false_eq_take (charLimit : ℕ) (l : List String) :
    ∀ t, chunkWordsAux charLimit l t false = l.take (consumedCount charLimit l t) := by
  induction l with
  | nil => intro t; rfl
  | cons w ws ih =>
    intro t
    simp only [chunkWordsAux, consumedCount]
    split
    · simp
    · rw [List.take_succ_cons, ih]

theorem getNextChunkStart_eq (words : List String) (charLimit pos : ℕ) :
    getNextChunkStart words charLimit pos =
      if consumedCount charLimit (words.drop pos) 0 = 0 then min words.length (pos + 1)
      else pos + consumedCount charLimit (words.drop pos) 0 := by
  unfold getNextChunkStart
  rw [nextChunkLoop_eq_add_count]
  by_cases h : consumedCount charLimit (words.drop pos) 0 = 0
  · rw [if_pos (by omega), if_pos h]
  · rw [if_neg (by omega), if_neg h]

theorem getNextChunkStart_of_ge (words : List String) (charLimit pos : ℕ)
    (h : words.length ≤ pos) :
    getNextChunkStart words charLimit pos = min words.length (pos + 1) := by
  rw [getNextChunkStart_eq, List.drop_eq_nil_iff.mpr h]
  rfl

theorem getNextChunkStart_progress (words : List String) (charLimit pos : ℕ)
    (h : pos < words.length) : pos < getNextChunkStart words charLimit pos := by
  rw [getNextChunkStart_eq]
  split
  · omega
  · omega

theorem getNextChunkStart_le_length (words : List String) (charLimit pos : ℕ) :
    getNextChunkStart words charLimit pos ≤ words.length := by
  rw [getNextChunkStart_eq]
  have hc := consumedCount_le_length charLimit (words.drop pos) 0
  rw [List.length_drop] at hc
  split
  · omega
  · rename_i h
    by_cases hp : pos ≤ words.length
    · omega
    · exfalso
      rw [List.drop_eq_nil_iff.mpr (by omega)] at h
      exact h rfl

theorem chunkWordsAux_true_eq (charLimit : ℕ) (l : List String) :
    chunkWordsAux charLimit l 0 true =
      if consumedCount charLimit l 0 = 0 then l.take 1
      else l.take (consumedCount charLimit l 0) := by
  match l with
  | [] => simp [chunkWordsAux, consumedCount]
  | w :: ws =>
    simp only [chunkWordsAux, consumedCount]
    split
    · simp
    · rw [chunkWordsAux_false_eq_take, if_neg (by omega), List.take_succ_cons]

theorem getChunkText_of_ge (words : List String) (charLimit pos : ℕ)
    (h : words.length ≤ pos) : getChunkText words charLimit pos = "" := by
  unfold getChunkText
  split
  · rfl
  · rw [List.drop_eq_nil_iff.mpr h]
    rfl

theorem getChunkText_eq_take (words : List String) (charLimit pos : ℕ) :
    getChunkText words charLimit pos =
      String.intercalate " "
        ((words.drop pos).take (getNextChunkStart words charLimit pos - pos)) := by
  by_cases hlen : words.length = 0
  · rw [List.length_eq_zero] at hlen
    subst hlen
    simp only [getChunkText, List.length_nil, if_pos rfl, List.drop_nil, List.take_nil]
    rfl
  · unfold getChunkText
    rw [if_neg hlen, chunkWordsAux_true_eq, getNextChunkStart_eq]
    by_cases hc : consumedCount charLimit (words.drop pos) 0 = 0
    · rw [if_pos hc, if_pos hc]
      by_cases hp : pos < words.length
      · have h1 : min words.length (pos + 1) - pos = 1 := by omega
        rw [h1]
      · rw [List.drop_eq_nil_iff.mpr (by omega)]
        simp
    · rw [if_neg hc, if_neg hc]
      have h1 : pos + consumedCount charLimit (words.drop pos) 0 - pos
          = consumedCount charLimit (words.drop pos) 0 := by omega
      rw [h1]

theorem sumIdx_succ_last (words : List String) :
    ∀ k m, sumIdx words m (k + 1) =
      sumIdx words m k + ((words.getD (m + k) "").length + 1) := by
  intro k
  induction k with
  | zero => intro m; simp [sumIdx]
  | succ k ih =>
    intro m
    have h1 : sumIdx words m (k + 1 + 1)
        = ((words.getD m "").length + 1) + sumIdx words (m + 1) (k + 1) := rfl
    have h2 : sumIdx words m (k + 1)
        = ((words.getD m "").length + 1) + sumIdx words (m + 1) k := rfl
    rw [h1, h2, ih (m + 1)]
    have h3 : m + 1 + k = m + (k + 1) := by omega
    rw [h3]
    omega

theorem sumIdx_eq_sumCost_take_drop (words : List String) :
    ∀ k m, m + k ≤ words.length →
      sumIdx words m k = sumCost ((words.drop m).take k) := by
  intro k
  induction k with
  | zero => intro m _; simp [sumIdx, sumCost]
  | succ k ih =>
    intro m hm
    have hmlt : m < words.length := by omega
    rw [List.drop_eq_getElem_cons hmlt, List.take_succ_cons, sumCost_cons]
    simp only [sumIdx]
    rw [ih (m + 1) (by omega), List.getD_eq_getElem words "" hmlt]

theorem prevChunkLoop_le (words : List String) (charLimit : ℕ) :
    ∀ p t, prevChunkLoop words charLimit p t ≤ p := by
  intro p
  induction p with
  | zero => intro t; simp [prevChunkLoop]
  | succ p ih =>
    intro t
    simp only [prevChunkLoop]
    split
    · omega
    · have := ih (t + ((words.getD p "").length + 1)); omega

theorem prevChunkLoop_le_of_fits (words : List String) (charLimit : ℕ) :
    ∀ k m t, t + sumIdx words m k ≤ charLimit →
      prevChunkLoop words charLimit (m + k) t ≤ m := by
  intro k
  induction k with
  | zero => intro m t _; exact prevChunkLoop_le words charLimit m t
  | succ k ih =>
    intro m t hfit
    rw [sumIdx_succ_last] at hfit
    have hstep : m + (k + 1) = (m + k) + 1 := by omega
    rw [hstep]
    simp only [prevChunkLoop]
    rw [if_neg (by omega)]
    exact ih m (t + ((words.getD (m + k) "").length + 1)) (by omega)

theorem getPrevChunkStart_le_self (words : List String) (charLimit pos : ℕ) :
    getPrevChunkStart words charLimit pos ≤ pos := by
  have := prevChunkLoop_le words charLimit pos 0
  show (if prevChunkLoop words charLimit pos 0 = pos then pos - 1
        else prevChunkLoop words charLimit pos 0) ≤ pos
  split
  · omega
  · omega

/-- Round-half-up of the rational `a / b` (for `b > 0`), i.e.
`⌊a / b + 1 / 2⌋`.  This models JavaScript `Math.round(a / b)`: for the
operand ranges used here the IEEE-754 quotient is exact at every
half-integer and otherwise too far from a half-integer for the rounding
of the division to move the result. -/
def roundDiv (a b : ℕ) : ℕ := (2 * a + b) / (2 * b)

/-- `msPerChunk` (App.jsx 146): the linear autoplay interval
`Math.max(1, Math.round(60000 / Math.max(1, wpm)))` in milliseconds. -/
def msPerChunk (wpm : ℕ) : ℕ := max 1 (roundDiv 60000 (max 1 wpm))

/-- The pair-timer interval `msPerPair` (App.jsx 388), computed by the
same formula as `msPerChunk`. -/
def msPerPair (wpm : ℕ) : ℕ := max 1 (roundDiv 60000 (max 1 wpm))

/-- One linear autoplay tick (App.jsx 150–172), `stepSize = 1` path: the
position updater recomputes the forward chunk boundary (the same loop as
`getNextChunkStart`, with the same `min(words.length, p + 1)` fallback);
if the result reaches the sequence length it stops the interval, sets
`isPlaying` to `false` and keeps the old position, otherwise it moves to
the new position.  The pair `(position, isPlaying)` models the state; the
cleared interval is represented by the `false` flag (the autoplay effect
at App.jsx 141–145 keeps the clock stopped whenever `isPlaying` is
`false`). -/
def linearTick (words : List String) (charLimit : ℕ) (s : ℕ × Bool) : ℕ × Bool :=
  if words.length ≤ getNextChunkStart words charLimit s.1 then (s.1, false)
  else (getNextChunkStart words charLimit s.1, s.2)

/-- `togglePlay` (App.jsx 179–181): flip `isPlaying` only when the word
sequence is non-empty. -/
def togglePlay (words : List String) (isPlaying : Bool) : Bool :=
  if 0 < words.length then !isPlaying else isPlaying

/-- The operations that can change `pairPos` after entering angle
(Paired) mode. -/
inductive PairOp where
  /-- Automatic pair-timer tick (App.jsx 390–397): advance by 2, or stop
  and hold when the next position would reach the sequence length. -/
  | tick : PairOp
  /-- Manual ArrowRight step in angle mode (App.jsx 585–589):
  `Math.min(p + 2, Math.max(0, words.length - 2))`. -/
  | stepFwd : PairOp
  /-- Manual ArrowLeft step in angle mode (App.jsx 591–595):
  `Math.max(0, p - 2)`. -/
  | stepBack : PairOp
deriving DecidableEq, Repr

/-- Apply one pair-cursor operation to `pairPos` for a sequence of length
`len` (ℕ subtraction models the `Math.max(0, ·)` clamps). -/
def pairStep (len : ℕ) (p : ℕ) : PairOp → ℕ
  | .tick => if len ≤ p + 2 then p else p + 2
  | .stepFwd => min (p + 2) (len - 2)
  | .stepBack => p - 2

/-- Mode-entry value of `pairPos` (App.jsx 440–442): the even index at or
below the current linear position, `Math.max(0, pos - (pos % 2))`. -/
def enterPairMode (pos : ℕ) : ℕ := pos - pos % 2

/-- `pairPos` after entering angle mode at linear position `pos` and then
performing the given operations. -/
def runPairOps (len : ℕ) (pos : ℕ) (ops : List PairOp) : ℕ :=
  ops.foldl (pairStep len) (enterPairMode pos)

/-- Training constants (App.jsx 349–352). -/
def TRAIN_MIN : ℤ := 10

/-- Upper gap bound (App.jsx 350). -/
def TRAIN_MAX : ℤ := 550

/-- Gap increment per training step (App.jsx 351). -/
def TRAIN_STEP : ℤ := 10

/-- Pair-advances per gap change (App.jsx 352). -/
def TRAIN_EVERY_PAIRS : ℕ := 3

/-- Training-relevant state: the pair gap, the oscillation direction and
the forward-pair counter (App.jsx 356, 362, 363). -/
structure TrainState where
  gap : ℤ
  dir : ℤ
  pairsSinceStep : ℕ
deriving DecidableEq, Repr

/-- State set by `toggleTraining` when turning training on
(App.jsx 461–463): counter 0, direction +1, gap `TRAIN_MIN`. -/
def trainInit : TrainState := ⟨TRAIN_MIN, 1, 0⟩

/-- Training reaction to one forward movement of `pairPos` onto a new
pair (App.jsx 501–515): increment the counter; once it reaches
`TRAIN_EVERY_PAIRS`, reset it and move the gap by `dir * TRAIN_STEP`,
clamping at `TRAIN_MAX` / `TRAIN_MIN` and flipping the direction there. -/
def trainAdvance (s : TrainState) : TrainState :=
  if TRAIN_EVERY_PAIRS ≤ s.pairsSinceStep + 1 then
    if TRAIN_MAX ≤ s.gap + s.dir * TRAIN_STEP then ⟨TRAIN_MAX, -1, 0⟩
    else if s.gap + s.dir * TRAIN_STEP ≤ TRAIN_MIN then ⟨TRAIN_MIN, 1, 0⟩
    else ⟨s.gap + s.dir * TRAIN_STEP, s.dir, 0⟩
  else ⟨s.gap, s.dir, s.pairsSinceStep + 1⟩

/-- `leftIndex` (App.jsx 376): the even floor of `pairPos`,
`Math.max(0, pairPos - (pairPos % 2))`. -/
def leftIndex (pairPos : ℕ) : ℕ := pairPos - pairPos % 2

/-- `jumpToPosition` (App.jsx 188–191): clamp the requested linear
position to `[0, max(0, words.length - 1)]`. -/
def jumpToPosition (len : ℕ) (newPos : ℕ) : ℕ := min newPos (len - 1)

/-- Linear position written by the pair→linear sync effect
(App.jsx 484–490): when angle mode is active and `leftIndex` changed,
`jumpToPosition(leftIndex)` is called. -/
def syncedPosition (words : List String) (pairPos : ℕ) : ℕ :=
  jumpToPosition words.length (leftIndex pairPos)

/-- The `ReadingView` state touched by `toggleTraining`
(App.jsx 355–365) together with the linear `isPlaying` flag. -/
structure ModeState where
  isAngleMode : Bool
  isTraining : Bool
  isPairPlaying : Bool
  isPlaying : Bool
  pairGap : ℤ
  trainingDir : ℤ
  pairsSinceStep : ℕ
  showGuide : Bool
  pairPos : ℕ
  prevPairPos : ℕ
deriving DecidableEq, Repr

/-- `toggleTraining` (App.jsx 457–473): turning training on forces angle
mode, pauses linear playback, resets the training oscillator and starts
pair playback; turning it off stops pair playback and leaves angle mode. -/
def toggleTraining (s : ModeState) : ModeState :=
  if s.isTraining = false then
    { s with isAngleMode := true, isPlaying := false, pairsSinceStep := 0,
             trainingDir := 1, pairGap := TRAIN_MIN, isTraining := true,
             isPairPlaying := true, prevPairPos := leftIndex s.pairPos,
             showGuide := true }
  else
    { s with isTraining := false, isPairPlaying := false, isAngleMode := false }

theorem consumedCount_cons_zero_iff (charLimit t : ℕ) (w : String) (ws : List String) :
    consumedCount charLimit (w :: ws) t = 0 ↔ charLimit < t + (w.length + 1) := by
  simp only [consumedCount]
  split
  · rename_i h; exact iff_of_true rfl h
  · rename_i h; exact iff_of_false (by omega) h

theorem drop_cons_of_lt (words : List String) (pos : ℕ) (h : pos < words.length) :
    ∃ w ws, words.drop pos = w :: ws ∧ w = words.getD pos "" := by
  refine ⟨words.getD pos "", words.drop (pos + 1), ?_, rfl⟩
  rw [List.drop_eq_getElem_cons h, List.getD_eq_getElem words "" h]

theorem chunk_maximality (words : List String) (charLimit pos : ℕ)
    (h : getNextChunkStart words charLimit pos < words.length) :
    charLimit < sumCost
      ((words.drop pos).take (getNextChunkStart words charLimit pos - pos + 1)) := by
  rw [getNextChunkStart_eq] at h ⊢
  by_cases hc : consumedCount charLimit (words.drop pos) 0 = 0
  · rw [if_pos hc] at h ⊢
    have hp : pos + 1 < words.length := by omega
    obtain ⟨w, ws, hws, hw⟩ := drop_cons_of_lt words pos (by omega)
    rw [hws] at hc ⊢
    have hbig := (consumedCount_cons_zero_iff charLimit 0 w ws).mp hc
    have h2 : min words.length (pos + 1) - pos + 1 = 2 := by omega
    rw [h2, List.take_succ_cons, sumCost_cons]
    omega
  · rw [if_neg hc] at h ⊢
    have hlen : consumedCount charLimit (words.drop pos) 0 < (words.drop pos).length := by
      rw [List.length_drop]
      omega
    have hmax := consumedCount_maximal charLimit (words.drop pos) 0 hlen
    have harith : pos + consumedCount charLimit (words.drop pos) 0 - pos + 1
        = consumedCount charLimit (words.drop pos) 0 + 1 := by omega
    rw [harith]
    omega

/-- C3: `getChunkText`/`getNextChunkStart` implement greedy accumulation:
the chunk text is exactly the consumed words joined by spaces, the
consumed words cost (`length + 1` each) at most the budget unless a first
word alone exceeds it and is taken by itself, no further word could have
been consumed, and on `["The","quick","brown","fox","jumps"]` with budget
10 the first chunk is `"The quick"` with next index 2. -/
theorem chunk_accumulation_rule (words : List String) (charLimit pos : ℕ) :
    (getChunkText words charLimit pos = String.intercalate " "
        ((words.drop pos).take (getNextChunkStart words charLimit pos - pos)))
    ∧ (sumCost ((words.drop pos).take (getNextChunkStart words charLimit pos - pos))
          ≤ charLimit
        ∨ (getNextChunkStart words charLimit pos = pos + 1
            ∧ charLimit < (words.drop pos).headI.length + 1))
    ∧ (getNextChunkStart words charLimit pos < words.length →
        charLimit < sumCost
          ((words.drop pos).take (getNextChunkStart words charLimit pos - pos + 1)))
    ∧ getChunkText ["The", "quick", "brown", "fox", "jumps"] 10 0 = "The quick"
    ∧ getNextChunkStart ["The", "quick", "brown", "fox", "jumps"] 10 0 = 2 := by
  refine ⟨getChunkText_eq_take words charLimit pos, ?_,
    chunk_maximality words charLimit pos, by decide, by decide⟩
  rw [getNextChunkStart_eq]
  by_cases hc : consumedCount charLimit (words.drop pos) 0 = 0
  · rw [if_pos hc]
    by_cases hp : pos < words.length
    · right
      obtain ⟨w, ws, hws, hw⟩ := drop_cons_of_lt words pos hp
      rw [hws] at hc ⊢
      have hbig := (consumedCount_cons_zero_iff charLimit 0 w ws).mp hc
      exact ⟨by omega, by simpa using hbig⟩
    · left
      rw [List.drop_eq_nil_iff.mpr (by omega)]
      simp [sumCost]
  · rw [if_neg hc]
    left
    have hsum := consumedCount_sum_le charLimit (words.drop pos) 0 (by omega)
    have harith : pos + consumedCount charLimit (words.drop pos) 0 - pos
        = consumedCount charLimit (words.drop pos) 0 := by omega
    rw [harith]
    omega

/-- C7: stepping forward with `getNextChunkStart` and then backward with
`getPrevChunkStart` under the same character budget never lands beyond
the original start index. -/
theorem prev_after_next_le (words : List String) (charLimit pos : ℕ) :
    getPrevChunkStart words charLimit (getNextChunkStart words charLimit pos) ≤ pos := by
  by_cases hp : pos < words.length
  · rw [getNextChunkStart_eq]
    by_cases hc : consumedCount charLimit (words.drop pos) 0 = 0
    · rw [if_pos hc]
      have hmin : min words.length (pos + 1) = pos + 1 := by omega
      rw [hmin]
      obtain ⟨w, ws, hws, hw⟩ := drop_cons_of_lt words pos hp
      rw [hws] at hc
      have hbig := (consumedCount_cons_zero_iff charLimit 0 w ws).mp hc
      have hloop : prevChunkLoop words charLimit (pos + 1) 0 = pos + 1 := by
        simp only [prevChunkLoop]
        rw [if_pos (by rw [← hw]; omega)]
      simp only [getPrevChunkStart]
      rw [hloop]
      simp
    · rw [if_neg hc]
      have hc1 : 1 ≤ consumedCount charLimit (words.drop pos) 0 := by omega
      have hclen := consumedCount_le_length charLimit (words.drop pos) 0
      rw [List.length_drop] at hclen
      have hsum : sumCost ((words.drop pos).take (consumedCount charLimit (words.drop pos) 0))
          ≤ charLimit := by
        have := consumedCount_sum_le charLimit (words.drop pos) 0 (by omega)
        omega
      have hidx := sumIdx_eq_sumCost_take_drop words
        (consumedCount charLimit (words.drop pos) 0) pos (by omega)
      have hprev : prevChunkLoop words charLimit
          (pos + consumedCount charLimit (words.drop pos) 0) 0 ≤ pos :=
        prevChunkLoop_le_of_fits words charLimit
          (consumedCount charLimit (words.drop pos) 0) pos 0 (by rw [hidx]; omega)
      simp only [getPrevChunkStart]
      split
      · omega
      · omega
  · rw [getNextChunkStart_of_ge words charLimit pos (by omega)]
    have hmin : min words.length (pos + 1) = words.length := by omega
    rw [hmin]
    have := getPrevChunkStart_le_self words charLimit words.length
    omega

/-- C1 counterexample: with `words = ["a"]`, budget 1 and start index 2
(strictly past the end), `getNextChunkStart` returns
`min(length, 3) = 1`, not the start index 2 the claim requires for every
`startIndex ≥ length`. -/
theorem nextChunk_end_counterexample :
    (["a"] : List String).length ≤ 2 ∧ getNextChunkStart ["a"] 1 2 = 1
      ∧ getNextChunkStart ["a"] 1 2 ≠ 2 := by decide

/-- C1 (amended): for budget ≥ 1, the next-chunk computation makes strict
progress from any start index below the length; at start index exactly
the length it returns an empty chunk and the unchanged index; strictly
past the end it returns an empty chunk and the length (not the start
index). -/
theorem nextChunk_progress_and_end_amended (words : List String) (charLimit pos : ℕ)
    (_hbudget : 1 ≤ charLimit) :
    (pos < words.length → pos < getNextChunkStart words charLimit pos)
    ∧ (pos = words.length → getChunkText words charLimit pos = ""
        ∧ getNextChunkStart words charLimit pos = pos)
    ∧ (words.length < pos → getChunkText words charLimit pos = ""
        ∧ getNextChunkStart words charLimit pos = words.length) := by
  refine ⟨getNextChunkStart_progress words charLimit pos, fun h => ?_, fun h => ?_⟩
  · refine ⟨getChunkText_of_ge words charLimit pos (by omega), ?_⟩
    rw [getNextChunkStart_of_ge words charLimit pos (by omega)]
    omega
  · refine ⟨getChunkText_of_ge words charLimit pos (by omega), ?_⟩
    rw [getNextChunkStart_of_ge words charLimit pos (by omega)]
    omega

/-- C1 witness: the amended claim evaluated at `words = ["a","b"]`,
budget 1, start index 0. -/
theorem nextChunk_progress_witness :
    (0 < (["a", "b"] : List String).length → 0 < getNextChunkStart ["a", "b"] 1 0)
    ∧ (0 = (["a", "b"] : List String).length → getChunkText ["a", "b"] 1 0 = ""
        ∧ getNextChunkStart ["a", "b"] 1 0 = 0)
    ∧ ((["a", "b"] : List String).length < 0 → getChunkText ["a", "b"] 1 0 = ""
        ∧ getNextChunkStart ["a", "b"] 1 0 = (["a", "b"] : List String).length) :=
  nextChunk_progress_and_end_amended ["a", "b"] 1 0 (by decide)

theorem pairStep_even (len p : ℕ) (op : PairOp) (hlen : Even len) (hp : Even p) :
    Even (pairStep len p op) := by
  rw [Nat.even_iff] at *
  cases op with
  | tick => simp only [pairStep]; split <;> omega
  | stepFwd => simp only [pairStep]; omega
  | stepBack => simp only [pairStep]; omega

theorem foldl_pairStep_even (len : ℕ) (hlen : Even len) :
    ∀ (ops : List PairOp) (p : ℕ), Even p → Even (List.foldl (pairStep len) p ops) := by
  intro ops
  induction ops with
  | nil => intro p hp; simpa using hp
  | cons op rest ih => intro p hp; exact ih _ (pairStep_even len p op hlen hp)

/-- C2 counterexample: on a 5-word sequence, entering angle mode at
linear position 0 and pressing ArrowRight twice drives `pairPos` to
`min(2 + 2, 5 - 2) = 3`, which is odd — the forward clamp to
`length − 2` breaks the evenness invariant when the length is odd. -/
theorem pairPos_even_counterexample :
    runPairOps (["a", "b", "c", "d", "e"] : List String).length 0
        [PairOp.stepFwd, PairOp.stepFwd] = 3
    ∧ ¬ Even (runPairOps (["a", "b", "c", "d", "e"] : List String).length 0
        [PairOp.stepFwd, PairOp.stepFwd]) := by decide

/-- C2 (amended): provided the word-sequence length is even, `pairPos`
is even in every state reachable from mode entry by auto-ticks and
manual ±2 steps (with odd length the forward clamp to `length − 2` can
produce an odd value). -/
theorem pairPos_even_invariant_amended (words : List String) (pos : ℕ)
    (ops : List PairOp) (hlen : Even words.length) :
    Even (runPairOps words.length pos ops) := by
  refine foldl_pairStep_even words.length hlen ops (enterPairMode pos) ?_
  unfold enterPairMode
  rw [Nat.even_iff]
  omega

/-- C2 witness: the amended invariant on a 4-word sequence, entering at
position 1 and stepping forward, ticking, and stepping back. -/
theorem pairPos_even_witness :
    Even (runPairOps (["a", "b", "c", "d"] : List String).length 1
      [PairOp.stepFwd, PairOp.tick, PairOp.stepBack]) :=
  pairPos_even_invariant_amended ["a", "b", "c", "d"] 1
    [PairOp.stepFwd, PairOp.tick, PairOp.stepBack] (by decide)

/-- Inductive invariant of the training oscillator: the gap stays within
`[TRAIN_MIN, TRAIN_MAX]`, the direction is ±1, and at a bound the
direction already points back inward. -/
def TrainInv (s : TrainState) : Prop :=
  TRAIN_MIN ≤ s.gap ∧ s.gap ≤ TRAIN_MAX ∧ (s.dir = 1 ∨ s.dir = -1)
    ∧ (s.gap = TRAIN_MAX → s.dir = -1) ∧ (s.gap = TRAIN_MIN → s.dir = 1)

theorem trainInv_init : TrainInv trainInit := by
  unfold TrainInv
  decide

theorem trainInv_step (s : TrainState) (h : TrainInv s) : TrainInv (trainAdvance s) := by
  obtain ⟨h1, h2, h3, h4, h5⟩ := h
  unfold TrainInv trainAdvance TRAIN_MIN TRAIN_MAX TRAIN_STEP TRAIN_EVERY_PAIRS at *
  split
  · split
    · exact ⟨by norm_num, le_refl _, Or.inr rfl, fun _ => rfl,
        fun habs => absurd habs (by norm_num)⟩
    · split
      · exact ⟨le_refl _, by norm_num, Or.inl rfl,
          fun habs => absurd habs (by norm_num), fun _ => rfl⟩
      · rename_i hmax hmin
        rcases h3 with hd | hd <;> rw [hd] at hmax hmin ⊢ <;> dsimp only
        · exact ⟨by omega, by omega, Or.inl rfl, fun habs => by omega, fun habs => by omega⟩
        · exact ⟨by omega, by omega, Or.inr rfl, fun habs => by omega, fun habs => by omega⟩
  · exact ⟨h1, h2, h3, h4, h5⟩

theorem trainAdvance_flip_iff (s : TrainState) (h : TrainInv s) :
    (trainAdvance s).dir ≠ s.dir ↔
      (TRAIN_EVERY_PAIRS ≤ s.pairsSinceStep + 1
        ∧ ((trainAdvance s).gap = TRAIN_MAX ∨ (trainAdvance s).gap = TRAIN_MIN)) := by
  obtain ⟨h1, h2, h3, h4, h5⟩ := h
  unfold trainAdvance TRAIN_MIN TRAIN_MAX TRAIN_STEP TRAIN_EVERY_PAIRS at *
  split
  · rename_i hcnt
    split
    · rename_i hmax
      rcases h3 with hd | hd
      · exact iff_of_true (by rw [hd]; norm_num) ⟨hcnt, Or.inl rfl⟩
      · exfalso
        rw [hd] at hmax
        omega
    · split
      · rename_i hmax hmin
        rcases h3 with hd | hd
        · exfalso
          rw [hd] at hmin
          omega
        · exact iff_of_true (by rw [hd]; norm_num) ⟨hcnt, Or.inr rfl⟩
      · rename_i hmax hmin
        refine iff_of_false (by simp) ?_
        rintro ⟨-, hbound | hbound⟩
        · exact hmax (le_of_eq hbound.symm)
        · exact hmin (le_of_eq hbound)
  · rename_i hcnt
    exact iff_of_false (by simp) (fun hc => hcnt hc.1)

theorem trainInv_iterate (n : ℕ) : TrainInv (trainAdvance^[n] trainInit) := by
  induction n with
  | zero => exact trainInv_init
  | succ n ih =>
    rw [Function.iterate_succ_apply']
    exact trainInv_step _ ih

/-- C4: along every training run started by `toggleTraining` (gap 10,
direction +1, counter 0), each forward pair-advance keeps `gapWidth`
inside `[TRAIN_MIN, TRAIN_MAX] = [10, 550]`, and the direction flips on
a step exactly when the counter fires and the resulting gap is clamped
to one of the two bounds. -/
theorem training_gap_bounds_and_flips (n : ℕ) :
    (TRAIN_MIN ≤ (trainAdvance^[n] trainInit).gap
      ∧ (trainAdvance^[n] trainInit).gap ≤ TRAIN_MAX)
    ∧ ((trainAdvance (trainAdvance^[n] trainInit)).dir ≠ (trainAdvance^[n] trainInit).dir
        ↔ (TRAIN_EVERY_PAIRS ≤ (trainAdvance^[n] trainInit).pairsSinceStep + 1
            ∧ ((trainAdvance (trainAdvance^[n] trainInit)).gap = TRAIN_MAX
              ∨ (trainAdvance (trainAdvance^[n] trainInit)).gap = TRAIN_MIN))) := by
  have h := trainInv_iterate n
  exact ⟨⟨h.1, h.2.1⟩, trainAdvance_flip_iff _ h⟩

/-- C5: for every `wpm ∈ [60, 1200]` both timer intervals equal the
rounded `60000 / wpm` and are at least 1 ms, and at 300 wpm the interval
is exactly 200 ms. -/
theorem tick_interval_formula (wpm : ℕ) (h60 : 60 ≤ wpm) (h1200 : wpm ≤ 1200) :
    msPerChunk wpm = roundDiv 60000 wpm
    ∧ msPerPair wpm = msPerChunk wpm
    ∧ 1 ≤ msPerChunk wpm
    ∧ msPerChunk 300 = 200 ∧ msPerPair 300 = 200 := by
  have hge1 : 1 ≤ roundDiv 60000 wpm := by
    unfold roundDiv
    rw [Nat.le_div_iff_mul_le (by omega)]
    omega
  unfold msPerChunk msPerPair
  have hmax : max 1 wpm = wpm := by omega
  rw [hmax]
  exact ⟨by omega, rfl, by omega, by decide, by decide⟩

/-- C5 witness: the interval facts instantiated at 300 wpm. -/
theorem tick_interval_witness :
    msPerChunk 300 = roundDiv 60000 300
    ∧ msPerPair 300 = msPerChunk 300
    ∧ 1 ≤ msPerChunk 300
    ∧ msPerChunk 300 = 200 ∧ msPerPair 300 = 200 :=
  tick_interval_formula 300 (by decide) (by decide)

/-- C6: on a linear tick from a valid position, if the recomputed chunk
boundary reaches the sequence length the tick stops playback and leaves
the position unchanged, and in every case the resulting position stays
strictly below the length. -/
theorem linear_tick_end_stop (words : List String) (charLimit p : ℕ) (playing : Bool)
    (hp : p < words.length) :
    (words.length ≤ getNextChunkStart words charLimit p →
      linearTick words charLimit (p, playing) = (p, false))
    ∧ (linearTick words charLimit (p, playing)).1 < words.length := by
  unfold linearTick
  refine ⟨fun h => ?_, ?_⟩
  · rw [if_pos h]
  · split
    · dsimp only
      exact hp
    · rename_i h
      dsimp only at h ⊢
      omega

/-- C6 witness: a 5-word sequence with a budget large enough that the
first tick's boundary is 5; the tick auto-stops and holds position 0. -/
theorem linear_tick_end_stop_witness :
    ((["aa", "bb", "cc", "dd", "ee"] : List String).length
        ≤ getNextChunkStart ["aa", "bb", "cc", "dd", "ee"] 100 0 →
      linearTick ["aa", "bb", "cc", "dd", "ee"] 100 (0, true) = (0, false))
    ∧ (linearTick ["aa", "bb", "cc", "dd", "ee"] 100 (0, true)).1
        < (["aa", "bb", "cc", "dd", "ee"] : List String).length :=
  linear_tick_end_stop ["aa", "bb", "cc", "dd", "ee"] 100 0 true (by decide)

/-- C8 counterexample: `pairPos = 3` is reachable on a 5-word sequence
(two forward steps from entry at 0), and the sync effect then writes the
even floor 2, not `pairPos` itself. -/
theorem pair_sync_counterexample :
    runPairOps (["a", "b", "c", "d", "e"] : List String).length 0
        [PairOp.stepFwd, PairOp.stepFwd] = 3
    ∧ syncedPosition ["a", "b", "c", "d", "e"] 3 = 2
    ∧ syncedPosition ["a", "b", "c", "d", "e"] 3 ≠ 3 := by decide

/-- C8 (amended): the sync effect writes
`jumpToPosition(leftIndex) = min(pairPos - pairPos % 2, length - 1)`,
which equals `pairPos` exactly when `pairPos` is even and below the
length. -/
theorem pair_sync_amended (words : List String) (pairPos : ℕ)
    (heven : pairPos % 2 = 0) (hlt : pairPos < words.length) :
    syncedPosition words pairPos = pairPos := by
  unfold syncedPosition jumpToPosition leftIndex
  omega

/-- C8 witness: the amended sync equality at an even in-range pair
position. -/
theorem pair_sync_witness : syncedPosition ["a", "b", "c"] 2 = 2 :=
  pair_sync_amended ["a", "b", "c"] 2 (by decide) (by decide)

/-- C9 counterexample: with an empty word sequence and `isPlaying = true`,
`togglePlay` leaves the state Playing — it does not transition
Playing→Idle, contradicting "transitions Playing to Idle always". -/
theorem togglePlay_counterexample :
    togglePlay ([] : List String) true = true
    ∧ togglePlay ([] : List String) true ≠ false := by decide

/-- C9 (amended): `togglePlay` moves Idle→Playing exactly when the
sequence is non-empty, moves Playing→Idle whenever the sequence is
non-empty, and is a complete no-op on an empty sequence. -/
theorem togglePlay_amended (words : List String) (b : Bool) :
    (togglePlay words false = true ↔ 0 < words.length)
    ∧ (0 < words.length → togglePlay words true = false)
    ∧ (words.length = 0 → togglePlay words b = b) := by
  unfold togglePlay
  refine ⟨?_, fun h => by rw [if_pos h]; rfl, fun h => by rw [if_neg (by omega)]⟩
  by_cases h : 0 < words.length
  · rw [if_pos h]
    exact iff_of_true rfl h
  · rw [if_neg h]
    exact iff_of_false (by simp) h

/-- C10: from any state with training on, `toggleTraining` turns
training off, stops pair playback, and exits angle (Paired) mode back to
Linear. -/
theorem toggleTraining_exits_paired (s : ModeState) (h : s.isTraining = true) :
    (toggleTraining s).isTraining = false
    ∧ (toggleTraining s).isPairPlaying = false
    ∧ (toggleTraining s).isAngleMode = false := by
  unfold toggleTraining
  rw [if_neg (by simp [h])]
  exact ⟨rfl, rfl, rfl⟩

/-- C10 witness: `toggleTraining` applied to a concrete training-active
state. -/
theorem toggleTraining_exits_paired_witness :
    (toggleTraining ⟨true, true, true, false, 10, 1, 0, true, 0, 0⟩).isTraining = false
    ∧ (toggleTraining ⟨true, true, true, false, 10, 1, 0, true, 0, 0⟩).isPairPlaying = false
    ∧ (toggleTraining ⟨true, true, true, false, 10, 1, 0, true, 0, 0⟩).isAngleMode = false :=
  toggleTraining_exits_paired ⟨true, true, true, false, 10, 1, 0, true, 0, 0⟩ rfl

end SpeedReader
